import Mathlib

/-!
Shallow embedding of the feed-bouncer ingestion / refresh engine
(crate feed-bouncer-database): the data model, identity lookup,
refresh plan / execute / commit protocol, the save-guard write
discipline and the v2 schema migration, together with theorems that
settle the specification claims against them.

Conventions of the embedding:
* machine integers become `Nat` (counters, sizes, sequence numbers; the
  only arithmetic performed on them is `+ 1`, far from any `u64` wrap),
* `chrono` instants become `Int` (a timestamp); the external `chrono`
  parsing / rendering functions are parameters (`Chrono`),
* `HashMap` / `BTreeMap` become association lists, `HashSet` / `BTreeSet`
  become duplicate-free lists (only membership / single-element views are
  consumed by the engine),
* network and disk become explicit oracles / state passed to the
  functions that use them,
* external payload types that the engine merely stores and compares are
  carried as inert fields participating in structural equality.
-/

namespace FeedBouncer

/-- FeedId (database.rs): `pub type FeedId = String`, an opaque stable
string identity. -/
abbrev FeedId := String

/-- External `chrono` functionality used by the engine: parsing an
rfc2822 date string to an instant, and rendering an instant back to an
rfc2822 string.  Both live in the external `chrono` crate, so the
embedding takes them as parameters. -/
structure Chrono where
  parseRfc2822 : String → Option Int
  toRfc2822 : Int → String

/-- Text (feeds/feed_rs.rs). -/
structure Text where
  src : Option String
  content : String
deriving DecidableEq

/-- Link (feeds/feed_rs.rs): `href` plus inert metadata (rel, media_type,
href_lang, title, length) summarized by `rest`, which takes part in value
equality exactly like the omitted fields do. -/
structure Link where
  href : String
  rest : String
deriving DecidableEq

/-- Item (feeds/rss.rs).  The engine's logic reads `title`, `link` and
`pub_date`; the remaining fields (description, author, categories,
comments, enclosure, guid, source, content, extensions, atom_ext,
itunes_ext, dublin_core_ext) are inert payload carried through unchanged
and are summarized by `rest` (participating in value equality). -/
structure RssItem where
  title : Option String
  link : Option String
  pub_date : Option String
  rest : String
deriving DecidableEq

/-- Entry (feeds/feed_rs.rs): the fields the engine reads (`title`,
`published`, `links`); the remaining inert payload is summarized by
`rest`.  `published` is a `chrono` instant. -/
structure Entry where
  title : Option Text
  published : Option Int
  links : List Link
  rest : String
deriving DecidableEq

/-- ChannelHeader (feeds/rss.rs): the engine reads `title`; the other
header fields are inert payload summarized by `rest`. -/
structure ChannelHeader where
  title : String
  rest : String
deriving DecidableEq

/-- FeedHeader of feeds/feed_rs.rs, the generic-feed header (renamed
`FeedRsHeader` here to avoid the cross-module name clash that Rust
resolves by module paths): the engine reads `title`; the other fields
are inert payload summarized by `rest`. -/
structure FeedRsHeader where
  title : Option Text
  rest : String
deriving DecidableEq

/-- FeedHeader (database/storage.rs; the identical enum appears in
database/storage_feed_header.rs). -/
inductive FeedHeader where
  | Rss : ChannelHeader → FeedHeader
  | FeedRs : FeedRsHeader → FeedHeader
deriving DecidableEq

/-- FeedItem (database/storage.rs; the identical enum appears in
database/storage_feed_item.rs). -/
inductive FeedItem where
  | Rss : RssItem → FeedItem
  | FeedRs : Entry → FeedItem
deriving DecidableEq

/-- old_date (database/storage.rs, database/storage_feed_item.rs): the
fixed sentinel `DateTime::parse_from_rfc3339("1996-12-19T16:39:57-08:00")`,
embedded as the corresponding unix instant 851042397. -/
def old_date : Int := 851042397

/-- The weekday normalization performed by `FeedItem::publish_date`: some
feeds spell out the full weekday name, violating rfc2822, so each of the
seven full names is replaced by its three-letter form before parsing. -/
def weekdayFix (v : String) : String :=
  ["Monday", "Tuesday", "Wednesday", "Thursday", "Friday", "Saturday", "Sunday"].foldl
    (fun s day => if s.containsSubstr day.toSubstring then s.replace day (day.take 3) else s) v

/-- FeedItem::publish_date (database/storage.rs and
database/storage_feed_item.rs).  For the Rss variant the raw `pub_date`
string is weekday-normalized and then rfc2822-parsed; for the
generic-feed variant the source re-renders the stored `chrono` instant
through rfc2822 and re-parses it, which is the identity on the stored
instant. -/
def FeedItem.publish_date (ch : Chrono) : FeedItem → Option Int
  | .Rss item => item.pub_date.bind (fun v => ch.parseRfc2822 (weekdayFix v))
  | .FeedRs entry => entry.published

/-- FeedItem::publish_date_or_old: the parsed date, or the fixed
`old_date` sentinel when the date is absent or unparseable. -/
def FeedItem.publish_date_or_old (ch : Chrono) (i : FeedItem) : Int :=
  (i.publish_date ch).getD old_date

/-- The key comparison used by `FeedItem::sort` (sorting is keyed by
`publish_date_or_old`). -/
def itemLE (ch : Chrono) (a b : FeedItem) : Bool :=
  decide (a.publish_date_or_old ch ≤ b.publish_date_or_old ch)

/-- FeedItem::sort (database/storage.rs, database/storage_feed_item.rs):
`sort_by_cached_key` is a stable sort by the item's effective date; a
stable sort by a key is extensionally the stable merge sort under the
key comparison.  The source is generic over a container projection; every
claim-relevant call site uses the identity projection embedded here. -/
def FeedItem.sort (ch : Chrono) (items : List FeedItem) : List FeedItem :=
  items.mergeSort (itemLE ch)

/-- ItemKey (feeds.rs): `type ItemKey = (Option<String>, Option<String>)`. -/
abbrev ItemKey := Option String × Option String

/-- item_key (feeds.rs): the identity key of an item is the pair
(title, raw date string); for the generic-feed variant the date string is
the rfc2822 rendering of the stored instant. -/
def item_key (ch : Chrono) : FeedItem → ItemKey
  | .Rss item => (item.title, item.pub_date)
  | .FeedRs item => (item.title.map (fun text => text.content), item.published.map ch.toRfc2822)

/-- opml::Outline is an external crate type that the engine only stores
and compares for equality; it is embedded as an opaque payload string. -/
abbrev Opml := String

/-- Feed (database/storage.rs, the generation used by the refresh engine
in feeds.rs; the v2 generation in database/storage_feed.rs exposes the
same `name` / `feed_url` / `key` accessors consumed by `Database::insert`).
`BTreeSet` fields become duplicate-free lists. -/
structure Feed where
  name : String
  feed_url : Option String
  opml : Option Opml
  feed_headers : List FeedHeader
  feeds : List FeedItem
  parent : Option FeedId
  tags : List String
  title_aliases : List String
  display_name : Option String
deriving DecidableEq

/-- Feed::new (database/storage.rs). -/
def Feed.new (name : String) : Feed :=
  { name := name, feed_url := none, opml := none, feed_headers := [], feeds := [],
    parent := none, tags := [], title_aliases := [], display_name := none }

/-- Feed::display_name (database/storage.rs): the user override if set,
else the source-reported name, trimmed. -/
def Feed.displayName (f : Feed) : String :=
  (f.display_name.getD f.name).trim

/-- LookupKey (database.rs). -/
structure LookupKey where
  name : String
  feed_url : Option String

/-- Feed::key (database/storage.rs). -/
def Feed.key (f : Feed) : LookupKey :=
  { name := f.name, feed_url := f.feed_url }

/-- HashSet::insert on a duplicate-free list. -/
def setInsert (l : List String) (id : String) : List String :=
  if id ∈ l then l else l ++ [id]

/-- SourceLookup (database.rs): the two derived indices, each a map from
a key string to the set of feed ids registered under it (absent keys map
to the empty set, matching `cloned().unwrap_or_default()`). -/
structure SourceLookup where
  rss_lookup : String → List FeedId
  title_lookup : String → List FeedId

/-- The empty lookup (`SourceLookup::default`). -/
def SourceLookup.default : SourceLookup :=
  { rss_lookup := fun _ => [], title_lookup := fun _ => [] }

/-- SourceLookup::touch (database.rs): register the id under the title
index and, when a source-url is present, under the url index. -/
def SourceLookup.touch (lk : SourceLookup) (feed_id : FeedId) (key : LookupKey) : SourceLookup :=
  let lk1 : SourceLookup :=
    { lk with title_lookup := fun k =>
        if k = key.name then setInsert (lk.title_lookup k) feed_id else lk.title_lookup k }
  match key.feed_url with
  | some rss =>
      { lk1 with rss_lookup := fun k =>
          if k = rss then setInsert (lk1.rss_lookup k) feed_id else lk1.rss_lookup k }
  | none => lk1

/-- SourceLookup::check (database.rs:49-66).  Returns the resolved id (if
any) together with whether the ambiguity warning was emitted.  Note that
the second branch returns `rss_matches.into_iter().next()` — the head of
the url-index match set — exactly as the source does. -/
def SourceLookup.check (lk : SourceLookup) (key : LookupKey) : Option FeedId × Bool :=
  let title_matches := lk.title_lookup key.name
  let rss_matches :=
    match key.feed_url with
    | some rss => lk.rss_lookup rss
    | none => []
  if rss_matches.length = 1 then (rss_matches.head?, false)
  else if title_matches.length = 1 then (rss_matches.head?, false)
  else if rss_matches.length > 1 ∨ title_matches.length > 1 then (none, true)
  else (none, false)

/-- Association-list lookup (`BTreeMap::get`). -/
def assocGet {β : Type} (s : List (FeedId × β)) (k : FeedId) : Option β :=
  match s with
  | [] => none
  | p :: rest => if p.1 = k then some p.2 else assocGet rest k

/-- Pointwise update of an association list (`BTreeMap::get_mut` followed
by mutation; a no-op when the key is absent). -/
def assocModify {β : Type} (s : List (FeedId × β)) (k : FeedId) (g : β → β) :
    List (FeedId × β) :=
  match s with
  | [] => []
  | p :: rest => (if p.1 = k then (p.1, g p.2) else p) :: assocModify rest k g

/-- Storage::get_or_insert (database/storage.rs): keep the existing
aggregate, or insert a clone of `f` when the key is absent. -/
def getOrInsert (s : List (FeedId × Feed)) (k : FeedId) (f : Feed) : List (FeedId × Feed) :=
  if (assocGet s k).isSome then s else s ++ [(k, f)]

/-- Database (database.rs): the feed aggregate store, the derived lookup,
the last-refresh timestamp and the optimistic-concurrency sequence
number.  (`user_data_storage` and `storage_path` are carried by the
source struct but consumed by no claimed operation.) -/
structure Database where
  storage : List (FeedId × Feed)
  lookup : SourceLookup
  last_feed_update : Option Int
  update_seq_no : Nat

/-- update_or_warn (database.rs): fill an absent field; keep an existing
value (emitting only a warning on mismatch). -/
def updateOrWarn {α : Type} (dst : Option α) (value : Option α) : Option α :=
  match value with
  | none => dst
  | some v =>
    match dst with
    | some d => some d
    | none => some v

/-- Feed::extend_tags (database/storage.rs): set union of tags. -/
def Feed.extend_tags (f : Feed) (ts : List String) : Feed :=
  { f with tags := ts.foldl setInsert f.tags }

/-- The two hex digits of one byte, lowercase (the `{:x}` rendering of a
digest byte). -/
def hexByte (b : Nat) : String :=
  String.mk ["0123456789abcdef".toList.getD (b % 256 / 16) '0',
             "0123456789abcdef".toList.getD (b % 16) '0']

/-- Lowercase hex encoding of a byte sequence (`format!("{:x}", hash)`). -/
def hexOfBytes (bs : List Nat) : String :=
  String.join (bs.map hexByte)

/-- UTF-8 bytes of a string, as `Nat`s below 256. -/
def utf8Bytes (s : String) : List Nat :=
  s.toUTF8.toList.map (fun b => b.toNat)

/-- Database::insert (database.rs:113-139).  Identity resolution via
`SourceLookup::check`; on `None` a new id is minted as the lowercase hex
digest of the name bytes followed by the source-url bytes (the `sha2`
crate's incremental SHA-256 is the external parameter `sha`; successive
`update` calls hash the concatenated stream).  The id is then touched
into the lookup, the aggregate is fetched-or-inserted, and the submitted
feed is merged field-by-field into the existing entry. -/
def Database.insert (sha : List Nat → List Nat) (db : Database) (item : Feed) :
    Database × FeedId :=
  let feed_id :=
    match (db.lookup.check item.key).1 with
    | some fid => fid
    | none =>
        hexOfBytes (sha (utf8Bytes item.name ++
          (match item.feed_url with
           | some rss => utf8Bytes rss
           | none => [])))
  let lookup := db.lookup.touch feed_id item.key
  let storage := getOrInsert db.storage feed_id item
  let storage := assocModify storage feed_id (fun existing =>
    ({ existing with
        feed_url := updateOrWarn existing.feed_url item.feed_url,
        opml := updateOrWarn existing.opml item.opml }).extend_tags item.tags)
  ({ db with storage := storage, lookup := lookup }, feed_id)

/-- One planned feed of a refresh cycle (feeds.rs, the tuple
`(FeedId, String, HashSet<ItemKey>, String)`): id, source-url, the
snapshot set of identity keys of the items currently stored for the feed
(a list; only membership is consumed), and the display name. -/
structure PlanEntry where
  fid : FeedId
  url : String
  existing : List ItemKey
  name : String
deriving DecidableEq

/-- UpdateFeedsTask (feeds.rs): the refresh plan. -/
structure UpdateFeedsTask where
  feeds : List PlanEntry
  seq_no : Nat

/-- Database::update_feeds_task (feeds.rs:126-160), the plan phase: for
every stored feed with a configured source-url, capture id, url, the
snapshot of item identity keys, and the display name, together with the
current `update_seq_no`. -/
def Database.update_feeds_task (ch : Chrono) (db : Database) : UpdateFeedsTask :=
  { feeds := db.storage.filterMap (fun p =>
      match p.2.feed_url with
      | some rss => some { fid := p.1, url := rss,
                           existing := p.2.feeds.map (item_key ch),
                           name := p.2.displayName }
      | none => none),
    seq_no := db.update_seq_no }

/-- Channel (the external rss crate's parsed document): structurally a
header plus the item list; `ChannelHeader::split` (feeds/rss.rs)
destructures it into exactly these two parts. -/
structure Channel where
  header : ChannelHeader
  items : List RssItem
deriving DecidableEq

/-- feed_rs::model::Feed (external crate): header plus entries;
`FeedHeader::split` (feeds/feed_rs.rs) destructures it into these. -/
structure FeedRsFeed where
  header : FeedRsHeader
  entries : List Entry
deriving DecidableEq

/-- FeedDownload (feeds.rs): the download result, one of the two wire
formats. -/
inductive FeedDownload where
  | Rss : Channel → FeedDownload
  | Feed : FeedRsFeed → FeedDownload
deriving DecidableEq

/-- FeedDownload::split_header (feeds.rs): split the parsed document into
a FeedHeader and the ordered item list (via `ChannelHeader::split` /
`FeedHeader::split`, which are structural destructurings). -/
def FeedDownload.split_header : FeedDownload → FeedHeader × List FeedItem
  | .Rss c => (.Rss c.header, c.items.map FeedItem.Rss)
  | .Feed f => (.FeedRs f.header, f.entries.map FeedItem.FeedRs)

/-- The network-and-parse oracle standing for `download` (feeds.rs:258-270):
for a url and a 1-based attempt number, either a transport failure
(`reqwest` error, `Except.error`) or a fetched body that parses as one of
the two formats (`some`) or as neither (`none`). -/
abbrev Fetch := String → Nat → Except Unit (Option FeedDownload)

/-- The retry loop of `UpdateFeedsTask::run` (feeds.rs:73-86), instrumented
with the number of download calls it makes.  `retries` starts at 0 and is
incremented at the top of each iteration; a successful download breaks
out; after a failed attempt the loop gives up when the incremented
counter exceeds 5. -/
def fetchLoopC {α : Type} (attempt : Nat → Except Unit α) (retries : Nat) : Option α × Nat :=
  let r := retries + 1
  match attempt r with
  | .ok res => (some res, 1)
  | .error _ =>
    if h : r > 5 then (none, 1)
    else
      have : 6 - (retries + 1) < 6 - retries := by omega
      let rest := fetchLoopC attempt r
      (rest.1, rest.2 + 1)
termination_by 6 - retries

/-- UpdateFeedsTaskResult (feeds.rs): per feed id, the accumulated
headers and new items, plus the sequence number captured at plan time. -/
structure UpdateFeedsTaskResult where
  results : List (FeedId × (List FeedHeader × List FeedItem))
  seq_no : Nat

/-- `results.entry(feed_id).or_default()` followed by pushing the header
and extending the filtered items (feeds.rs:95-110). -/
def entryPush (results : List (FeedId × (List FeedHeader × List FeedItem))) (fid : FeedId)
    (header : FeedHeader) (newItems : List FeedItem) :
    List (FeedId × (List FeedHeader × List FeedItem)) :=
  if (assocGet results fid).isSome then
    assocModify results fid (fun e => (e.1 ++ [header], e.2 ++ newItems))
  else
    results ++ [(fid, ([header], newItems))]

/-- The body of `UpdateFeedsTask::run`'s outer loop for one planned feed
(feeds.rs:72-111): run the retry loop; on gave-up or
parsed-by-neither-format, skip the feed; otherwise split, sort, and keep
exactly the items whose identity key is absent from the plan snapshot. -/
def runStep (ch : Chrono) (fetch : Fetch)
    (results : List (FeedId × (List FeedHeader × List FeedItem))) (e : PlanEntry) :
    List (FeedId × (List FeedHeader × List FeedItem)) :=
  match (fetchLoopC (fetch e.url) 0).1 with
  | none => results
  | some none => results
  | some (some dl) =>
    let split := dl.split_header
    let current_feed_items := FeedItem.sort ch split.2
    let newItems := current_feed_items.filter (fun item =>
      !decide (item_key ch item ∈ e.existing))
    entryPush results e.fid split.1 newItems

/-- UpdateFeedsTask::run (feeds.rs:69-118), the execute phase over the
fetch oracle. -/
def UpdateFeedsTask.run (ch : Chrono) (fetch : Fetch) (task : UpdateFeedsTask) :
    UpdateFeedsTaskResult :=
  { results := task.feeds.foldl (runStep ch fetch) [],
    seq_no := task.seq_no }

/-- The per-feed commit body (feeds.rs:170-179): append every header not
already present by value equality, extend the item list with the new
items, and re-sort by effective date. -/
def commitFeed (ch : Chrono) (batch : List FeedHeader × List FeedItem) (feed : Feed) : Feed :=
  let feed := batch.1.foldl (fun f feed_header =>
      if feed_header ∈ f.feed_headers then f
      else { f with feed_headers := f.feed_headers ++ [feed_header] }) feed
  { feed with feeds := FeedItem.sort ch (feed.feeds ++ batch.2) }

/-- Database::commit_from (feeds.rs:162-184), the commit phase: on a
sequence-number mismatch the whole batch is discarded and the store left
untouched; otherwise each result entry is merged into its feed (absent
ids are skipped by `get_mut`), the last-refresh timestamp is set to `now`
and the sequence number is bumped via `set_update_seq_no(seq_no + 1)`
(whose `assert!(update_seq_no < v)` holds here: in this branch
`update_seq_no = results.seq_no < results.seq_no + 1`). -/
def Database.commit_from (ch : Chrono) (db : Database) (results : UpdateFeedsTaskResult)
    (now : Int) : Database :=
  if results.seq_no ≠ db.update_seq_no then db
  else
    let storage := results.results.foldl
      (fun s e => assocModify s e.1 (commitFeed ch e.2)) db.storage
    { db with storage := storage, last_feed_update := some now,
              update_seq_no := results.seq_no + 1 }

/-- Path::with_extension at the string level: replace everything after
the last dot (or append when there is none).  All call sites pass file
paths whose final component carries a `.json` extension. -/
def withExtension (p : String) (ext : String) : String :=
  let rcs := p.toList.reverse
  if rcs.any (fun c => c = '.') then
    String.mk ((rcs.dropWhile (fun c => c ≠ '.')).drop 1).reverse ++ "." ++ ext
  else p ++ "." ++ ext

/-- Outcome of one `safe_save_json` call: the file system afterwards
(path contents by name), whether the rename replaced the original, and
whether the suspicious-size warning was emitted. -/
structure SaveOutcome where
  files : String → Option String
  renamed : Bool
  warned : Bool

/-- safe_save_json (lib.rs:22-36).  `data` is the serde-serialized
document (serialization is external and infallible here, matching the
source's unwrap); the file system is a map from path to contents.  The
serialized output is written to the temporary sibling path
`path.with_extension("new.json")`; sizes are the byte lengths; the
original is replaced by rename exactly when shrinking is allowed or the
new size is at least the old one (a missing original has size 0),
otherwise only a warning is emitted and the original is left as it was. -/
def safe_save_json (fs : String → Option String) (data : String) (path : String)
    (allow_shrink : Bool) : SaveOutcome :=
  let new_path := withExtension path "new.json"
  let fs1 := fun p => if p = new_path then some data else fs p
  let new_size := data.utf8ByteSize
  let old_size := ((fs1 path).map String.utf8ByteSize).getD 0
  if allow_shrink || decide (new_size ≥ old_size) then
    { files := fun p => if p = path then some data else if p = new_path then none else fs1 p,
      renamed := true, warned := false }
  else
    { files := fs1, renamed := false, warned := true }

/-- FeedHeaderMeta (database/storage_feed_header.rs). -/
structure FeedHeaderMeta where
  id : Nat
  header : FeedHeader
deriving DecidableEq

/-- FeedItemMeta (database/storage_feed_item.rs). -/
structure FeedItemMeta where
  id : Nat
  item : FeedItem
deriving DecidableEq

/-- Feed of database/storage_feed.rs (the v2 generation, carrying both
the legacy unkeyed lists and the id-stamped v2 lists with their persisted
counters). -/
structure FeedV2 where
  name : String
  feed_url : Option String
  opml : Option Opml
  feed_headers : List FeedHeader
  feed_headers_v2 : List FeedHeaderMeta
  feed_headers_counter : Nat
  feeds : List FeedItem
  feeds_v2 : List FeedItemMeta
  feeds_counter : Nat
  parent : Option FeedId
  tags : List String
  title_aliases : List String
  display_name : Option String
deriving DecidableEq

/-- One drain loop of `Feed::migrate_data`: move each legacy element into
the id-stamped list, assigning ids from the running counter in original
order. -/
def drainLoop {α β : Type} (mk : Nat → α → β) (start : List β × Nat) (xs : List α) :
    List β × Nat :=
  xs.foldl (fun acc x => (acc.1 ++ [mk acc.2 x], acc.2 + 1)) start

/-- Feed::migrate_data (database/storage_feed.rs:99-111): drain the
legacy header and item lists into the v2 lists, stamping sequence ids
from the persisted counters. -/
def FeedV2.migrate_data (f : FeedV2) : FeedV2 :=
  let hAcc := drainLoop FeedHeaderMeta.mk (f.feed_headers_v2, f.feed_headers_counter) f.feed_headers
  let iAcc := drainLoop FeedItemMeta.mk (f.feeds_v2, f.feeds_counter) f.feeds
  { f with feed_headers := [], feed_headers_v2 := hAcc.1, feed_headers_counter := hAcc.2,
           feeds := [], feeds_v2 := iAcc.1, feeds_counter := iAcc.2 }

/-- Modelled from the spec: the v2 `Storage::open` that runs the one-time
migration step on each loaded aggregate is not among the provided sources
(the snapshot's database/storage.rs is the pre-v2 generation; only
`Feed::migrate_data` itself is present, in database/storage_feed.rs).
Spec §4.3: "reads every document in the feeds directory, keyed by
filename stem = FeedId; on load, runs the one-time migration step ...
before the aggregate is used".  `docs` is the keyed collection of parsed
on-disk documents. -/
def StorageV2.openStore (docs : List (FeedId × FeedV2)) : List (FeedId × FeedV2) :=
  docs.map (fun p => (p.1, p.2.migrate_data))

/-- The per-feed outcome of the execute phase, as a function of that
feed's own plan entry and the oracle at its own url: `none` when the
download gives up or the body parses as neither format, otherwise the
header and the filtered new items. -/
def processFeed (ch : Chrono) (fetch : Fetch) (e : PlanEntry) :
    Option (List FeedHeader × List FeedItem) :=
  match (fetchLoopC (fetch e.url) 0).1 with
  | none => none
  | some none => none
  | some (some dl) =>
    some ([dl.split_header.1],
      (FeedItem.sort ch dl.split_header.2).filter (fun item =>
        !decide (item_key ch item ∈ e.existing)))

/-- The header-list effect of the per-feed commit body: append each
incoming header exactly when no value-equal header is present yet. -/
def dedupAppend (old : List FeedHeader) (hs : List FeedHeader) : List FeedHeader :=
  hs.foldl (fun acc h => if h ∈ acc then acc else acc ++ [h]) old

/-- An item list sorted non-decreasing by effective publish date. -/
def SortedItems (ch : Chrono) (l : List FeedItem) : Prop :=
  l.Pairwise (fun a b => a.publish_date_or_old ch ≤ b.publish_date_or_old ch)

/-- A lookup state with exactly one id indexed under the title "A" and an
empty url index: the input on which the title branch of
`SourceLookup::check` is exercised. -/
def exampleLookup : SourceLookup :=
  { rss_lookup := fun _ => [], title_lookup := fun k => if k = "A" then ["id1"] else [] }

/-- A trivial instantiation of the external chrono parameters, used to
evaluate the theorems at concrete inputs. -/
def ch0 : Chrono :=
  { parseRfc2822 := fun _ => none, toRfc2822 := fun _ => "" }

/-- An empty store at sequence number 0. -/
def dbW : Database :=
  { storage := [], lookup := SourceLookup.default, last_feed_update := none, update_seq_no := 0 }

/-- A refresh result carrying sequence number 1 (mismatching `dbW`). -/
def resW1 : UpdateFeedsTaskResult :=
  { results := [], seq_no := 1 }

/-- Concrete header / item payloads for evaluating the commit theorems. -/
def hdrW : FeedHeader := .Rss { title := "T", rest := "" }

def hdrW2 : FeedHeader := .Rss { title := "T2", rest := "" }

def itemW : FeedItem := .Rss { title := some "I", link := none, pub_date := none, rest := "" }

/-- A stored feed with one header and no items. -/
def feedW : Feed :=
  { name := "N", feed_url := some "u", opml := none, feed_headers := [hdrW], feeds := [],
    parent := none, tags := [], title_aliases := [], display_name := none }

/-- A one-feed store at sequence number 3. -/
def dbW4 : Database :=
  { storage := [("f1", feedW)], lookup := SourceLookup.default, last_feed_update := none,
    update_seq_no := 3 }

/-- A matching result batch for `dbW4` re-announcing `hdrW` together with
a new header and a new item. -/
def resW4 : UpdateFeedsTaskResult :=
  { results := [("f1", ([hdrW, hdrW2], [itemW]))], seq_no := 3 }

/-- A matching result batch for `dbW4` naming a feed id absent from the
store. -/
def resW10 : UpdateFeedsTaskResult :=
  { results := [("gone", ([hdrW2], [itemW]))], seq_no := 3 }

/-- The feed of the end-to-end minting example (name "Example", url
"https://x/feed"). -/
def feedW3 : Feed :=
  { name := "Example", feed_url := some "https://x/feed", opml := none, feed_headers := [],
    feeds := [], parent := none, tags := [], title_aliases := [], display_name := none }

/-- A stand-in digest function for evaluating the minting theorem (the
theorem holds for every digest function). -/
def shaW : List Nat → List Nat := fun _ => [171, 12]

/-- A fetched single-item RSS channel for evaluating the execute-phase
theorems. -/
def dlW : FeedDownload :=
  .Rss { header := { title := "Chan", rest := "" },
         items := [{ title := some "I", link := none, pub_date := none, rest := "" }] }

/-- An oracle whose download always succeeds with `dlW`. -/
def fetchW : Fetch := fun _ _ => .ok (some dlW)

/-- An oracle whose download always fails at the transport level. -/
def fetchFailW : Fetch := fun _ _ => .error ()

/-- A single-feed store whose feed has a source-url, for the
execute-phase theorems. -/
def feedW5 : Feed :=
  { name := "N5", feed_url := some "u5", opml := none, feed_headers := [], feeds := [],
    parent := none, tags := [], title_aliases := [], display_name := none }

def dbW5 : Database :=
  { storage := [("f5", feedW5)], lookup := SourceLookup.default, last_feed_update := none,
    update_seq_no := 0 }

/-- A one-file filesystem for evaluating the save guard: the original
document holds ten bytes. -/
def fsW : String → Option String :=
  fun p => if p = "d/user_data.json" then some "0123456789" else none

section AssocLemmas

variable {β : Type}

theorem assocGet_modify_self (s : List (FeedId × β)) (k : FeedId) (g : β → β) :
    assocGet (assocModify s k g) k = (assocGet s k).map g := by
  induction s with
  | nil => simp [assocGet, assocModify]
  | cons p rest ih =>
    by_cases h : p.1 = k
    · simp [assocGet, assocModify, h]
    · simpa [assocGet, assocModify, h] using ih

theorem assocGet_modify_ne (s : List (FeedId × β)) (k k' : FeedId) (g : β → β)
    (h : k' ≠ k) : assocGet (assocModify s k' g) k = assocGet s k := by
  induction s with
  | nil => simp [assocGet, assocModify]
  | cons p rest ih =>
    by_cases hp : p.1 = k'
    · simp [assocGet, assocModify, hp, h, ih]
    · by_cases hk : p.1 = k
      · simp [assocGet, assocModify, hp, hk, h.symm]
      · simp [assocGet, assocModify, hp, hk, ih]

theorem assocGet_append_self (s : List (FeedId × β)) (k : FeedId) (v : β)
    (h : assocGet s k = none) : assocGet (s ++ [(k, v)]) k = some v := by
  induction s with
  | nil => simp [assocGet]
  | cons p rest ih =>
    by_cases hp : p.1 = k
    · simp [assocGet, hp] at h
    · simp [assocGet, hp] at h ⊢
      exact ih h

theorem assocGet_append_ne (s : List (FeedId × β)) (k k' : FeedId) (v : β)
    (h : k' ≠ k) : assocGet (s ++ [(k', v)]) k = assocGet s k := by
  induction s with
  | nil => simp [assocGet, h]
  | cons p rest ih =>
    by_cases hp : p.1 = k
    · simp [assocGet, hp]
    · simp [assocGet, hp]
      exact ih

theorem assocGet_eq_some_mem (s : List (FeedId × β)) (k : FeedId) (v : β)
    (h : assocGet s k = some v) : (k, v) ∈ s := by
  induction s with
  | nil => simp [assocGet] at h
  | cons p rest ih =>
    obtain ⟨a, b⟩ := p
    by_cases hp : a = k
    · subst hp
      simp only [assocGet, if_pos] at h
      injection h with h
      subst h
      exact List.mem_cons_self _ _
    · simp only [assocGet, if_neg hp] at h
      exact List.mem_cons_of_mem _ (ih h)

end AssocLemmas

section FoldLemmas

variable {β γ : Type}

theorem foldl_assocModify_get_notin (f : γ → β → β) (entries : List (FeedId × γ))
    (s : List (FeedId × β)) (k : FeedId) (h : ∀ e ∈ entries, e.1 ≠ k) :
    assocGet (entries.foldl (fun s e => assocModify s e.1 (f e.2)) s) k = assocGet s k := by
  induction entries generalizing s with
  | nil => simp
  | cons e rest ih =>
    simp only [List.foldl_cons]
    rw [ih _ (fun x hx => h x (List.mem_cons_of_mem e hx))]
    exact assocGet_modify_ne s k e.1 (f e.2) (h e (List.mem_cons_self e rest))

theorem foldl_assocModify_get_mem (f : γ → β → β) (entries : List (FeedId × γ))
    (s : List (FeedId × β)) (k : FeedId) (pr : γ)
    (hnd : (entries.map Prod.fst).Nodup) (hmem : (k, pr) ∈ entries) :
    assocGet (entries.foldl (fun s e => assocModify s e.1 (f e.2)) s) k =
      (assocGet s k).map (f pr) := by
  induction entries generalizing s with
  | nil => simp at hmem
  | cons e rest ih =>
    simp only [List.map_cons, List.nodup_cons] at hnd
    rcases List.mem_cons.mp hmem with heq | hrest
    · subst heq
      simp only [List.foldl_cons]
      rw [foldl_assocModify_get_notin]
      · exact assocGet_modify_self s k (f pr)
      · intro x hx hxk
        apply hnd.1
        rw [← hxk]
        exact List.mem_map.mpr ⟨x, hx, rfl⟩
    · have hek : e.1 ≠ k := by
        intro hk
        apply hnd.1
        rw [hk]
        exact List.mem_map.mpr ⟨(k, pr), hrest, rfl⟩
      simp only [List.foldl_cons]
      rw [ih (assocModify s e.1 (f e.2)) hnd.2 hrest,
          assocGet_modify_ne s k e.1 (f e.2) hek]

end FoldLemmas

section SortLemmas

theorem itemLE_trans (ch : Chrono) : ∀ a b c : FeedItem,
    itemLE ch a b → itemLE ch b c → itemLE ch a c := by
  intro a b c hab hbc
  simp only [itemLE, decide_eq_true_iff] at *
  exact le_trans hab hbc

theorem itemLE_total (ch : Chrono) : ∀ a b : FeedItem,
    itemLE ch a b || itemLE ch b a := by
  intro a b
  simp only [itemLE, Bool.or_eq_true, decide_eq_true_iff]
  exact le_total _ _

theorem sort_sorted (ch : Chrono) (l : List FeedItem) :
    SortedItems ch (FeedItem.sort ch l) := by
  have h := List.sorted_mergeSort
    (fun a b c => itemLE_trans ch a b c) (itemLE_total ch) l
  refine h.imp ?_
  intro a b hab
  simpa [itemLE, decide_eq_true_iff] using hab

theorem sort_perm (ch : Chrono) (l : List FeedItem) :
    (FeedItem.sort ch l).Perm l :=
  List.mergeSort_perm l (itemLE ch)

theorem sort_stable_filter (ch : Chrono) (l : List FeedItem) (d : Int) :
    (FeedItem.sort ch l).filter (fun i => decide (i.publish_date_or_old ch = d)) =
      l.filter (fun i => decide (i.publish_date_or_old ch = d)) := by
  set p : FeedItem → Bool := fun i => decide (i.publish_date_or_old ch = d) with hp
  have hpair : (l.filter p).Pairwise (fun a b => itemLE ch a b = true) := by
    have : ∀ a ∈ l.filter p, FeedItem.publish_date_or_old ch a = d := by
      intro a ha
      have := List.of_mem_filter ha
      simpa [hp] using this
    apply List.pairwise_of_forall_mem_list
    intro a ha b hb
    simp only [itemLE, decide_eq_true_iff]
    rw [this a ha, this b hb]
  have hsub : (l.filter p).Sublist (FeedItem.sort ch l) :=
    List.sublist_mergeSort (fun a b c => itemLE_trans ch a b c) (itemLE_total ch)
      hpair (List.filter_sublist l)
  have hsub2 : ((l.filter p).filter p).Sublist ((FeedItem.sort ch l).filter p) :=
    List.Sublist.filter p hsub
  rw [List.filter_filter] at hsub2
  have hself : (l.filter p).filter p = l.filter p := by
    rw [List.filter_eq_self]
    intro a ha
    exact List.of_mem_filter ha
  have hperm : ((FeedItem.sort ch l).filter p).Perm (l.filter p) :=
    List.Perm.filter p (sort_perm ch l)
  have hsub3 : (l.filter p).Sublist ((FeedItem.sort ch l).filter p) := by
    have : (fun a => p a && p a) = p := by
      funext a
      cases p a <;> simp
    rw [this] at hsub2
    exact hsub2
  exact (List.Sublist.eq_of_length hsub3 hperm.length_eq.symm).symm

theorem publish_date_none_old (ch : Chrono) (i : FeedItem)
    (h : i.publish_date ch = none) : i.publish_date_or_old ch = old_date := by
  simp [FeedItem.publish_date_or_old, h]

end SortLemmas

section CommitLemmas

theorem commitFeed_eq (ch : Chrono) (pr : List FeedHeader × List FeedItem) (f : Feed) :
    commitFeed ch pr f =
      { f with feed_headers := dedupAppend f.feed_headers pr.1,
               feeds := FeedItem.sort ch (f.feeds ++ pr.2) } := by
  obtain ⟨hs, its⟩ := pr
  simp only [commitFeed, dedupAppend]
  have : ∀ (hs : List FeedHeader) (f : Feed),
      hs.foldl (fun f feed_header =>
        if feed_header ∈ f.feed_headers then f
        else { f with feed_headers := f.feed_headers ++ [feed_header] }) f =
      { f with feed_headers :=
          hs.foldl (fun acc h => if h ∈ acc then acc else acc ++ [h]) f.feed_headers } := by
    intro hs
    induction hs with
    | nil => intro f; rfl
    | cons h rest ih =>
      intro f
      simp only [List.foldl_cons]
      by_cases hmem : h ∈ f.feed_headers
      · rw [if_pos hmem, if_pos hmem, ih]
      · rw [if_neg hmem, if_neg hmem, ih]
  rw [this]

theorem dedupAppend_nodup (old hs : List FeedHeader) (h : old.Nodup) :
    (dedupAppend old hs).Nodup := by
  induction hs generalizing old with
  | nil => exact h
  | cons x rest ih =>
    simp only [dedupAppend, List.foldl_cons]
    by_cases hx : x ∈ old
    · rw [if_pos hx]
      exact ih old h
    · rw [if_neg hx]
      refine ih _ ?_
      simpa [List.nodup_append] using ⟨h, fun hh => hx hh⟩

theorem mem_dedupAppend (old hs : List FeedHeader) (x : FeedHeader) :
    x ∈ dedupAppend old hs ↔ x ∈ old ∨ x ∈ hs := by
  induction hs generalizing old with
  | nil => simp [dedupAppend]
  | cons y rest ih =>
    simp only [dedupAppend, List.foldl_cons]
    by_cases hy : y ∈ old
    · rw [if_pos hy]
      have := ih old
      simp only [dedupAppend] at this
      rw [this]
      constructor
      · rintro (h | h)
        · exact Or.inl h
        · exact Or.inr (List.mem_cons_of_mem _ h)
      · rintro (h | h)
        · exact Or.inl h
        · rcases List.mem_cons.mp h with rfl | h
          · exact Or.inl hy
          · exact Or.inr h
    · rw [if_neg hy]
      have := ih (old ++ [y])
      simp only [dedupAppend] at this
      rw [this]
      simp [List.mem_append, List.mem_cons, or_assoc, or_comm, or_left_comm]

end CommitLemmas

section RunLemmas

theorem entryPush_get_ne (res : List (FeedId × (List FeedHeader × List FeedItem)))
    (fid k : FeedId) (h : FeedHeader) (its : List FeedItem) (hne : fid ≠ k) :
    assocGet (entryPush res fid h its) k = assocGet res k := by
  unfold entryPush
  by_cases hs : (assocGet res fid).isSome
  · rw [if_pos hs]
    exact assocGet_modify_ne res k fid _ hne
  · rw [if_neg hs]
    exact assocGet_append_ne res k fid _ hne

theorem entryPush_get_self_none (res : List (FeedId × (List FeedHeader × List FeedItem)))
    (fid : FeedId) (h : FeedHeader) (its : List FeedItem)
    (hnone : assocGet res fid = none) :
    assocGet (entryPush res fid h its) fid = some ([h], its) := by
  unfold entryPush
  rw [if_neg (by simp [hnone])]
  exact assocGet_append_self res fid _ hnone

theorem runStep_get_ne (ch : Chrono) (fetch : Fetch)
    (res : List (FeedId × (List FeedHeader × List FeedItem))) (e : PlanEntry) (k : FeedId)
    (hne : e.fid ≠ k) :
    assocGet (runStep ch fetch res e) k = assocGet res k := by
  unfold runStep
  rcases hX : (fetchLoopC (fetch e.url) 0).1 with _ | (_ | dl)
  · rfl
  · rfl
  · exact entryPush_get_ne res e.fid k _ _ hne

theorem runStep_get_self (ch : Chrono) (fetch : Fetch)
    (res : List (FeedId × (List FeedHeader × List FeedItem))) (e : PlanEntry)
    (hnone : assocGet res e.fid = none) :
    assocGet (runStep ch fetch res e) e.fid = processFeed ch fetch e := by
  unfold runStep processFeed
  rcases hX : (fetchLoopC (fetch e.url) 0).1 with _ | (_ | dl)
  · exact hnone
  · exact hnone
  · exact entryPush_get_self_none res e.fid _ _ hnone

theorem runFold_get_notin (ch : Chrono) (fetch : Fetch) (entries : List PlanEntry)
    (acc : List (FeedId × (List FeedHeader × List FeedItem))) (k : FeedId)
    (h : ∀ x ∈ entries, x.fid ≠ k) :
    assocGet (entries.foldl (runStep ch fetch) acc) k = assocGet acc k := by
  induction entries generalizing acc with
  | nil => rfl
  | cons x rest ih =>
    simp only [List.foldl_cons]
    rw [ih _ (fun y hy => h y (List.mem_cons_of_mem x hy))]
    exact runStep_get_ne ch fetch acc x k (h x (List.mem_cons_self x rest))

theorem runFold_get_mem (ch : Chrono) (fetch : Fetch) (entries : List PlanEntry)
    (acc : List (FeedId × (List FeedHeader × List FeedItem))) (e : PlanEntry)
    (hnd : (entries.map PlanEntry.fid).Nodup) (hmem : e ∈ entries)
    (hacc : assocGet acc e.fid = none) :
    assocGet (entries.foldl (runStep ch fetch) acc) e.fid = processFeed ch fetch e := by
  induction entries generalizing acc with
  | nil => simp at hmem
  | cons x rest ih =>
    simp only [List.map_cons, List.nodup_cons] at hnd
    rcases List.mem_cons.mp hmem with heq | hrest
    · subst heq
      simp only [List.foldl_cons]
      rw [runFold_get_notin]
      · exact runStep_get_self ch fetch acc e hacc
      · intro y hy hk
        apply hnd.1
        rw [← hk]
        exact List.mem_map.mpr ⟨y, hy, rfl⟩
    · have hxk : x.fid ≠ e.fid := by
        intro hk
        apply hnd.1
        rw [hk]
        exact List.mem_map.mpr ⟨e, hrest, rfl⟩
      simp only [List.foldl_cons]
      refine ih (runStep ch fetch acc x) hnd.2 hrest ?_
      rw [runStep_get_ne ch fetch acc x e.fid hxk]
      exact hacc

theorem run_results_get (ch : Chrono) (fetch : Fetch) (task : UpdateFeedsTask)
    (e : PlanEntry) (hnd : (task.feeds.map PlanEntry.fid).Nodup) (hmem : e ∈ task.feeds) :
    assocGet (task.run ch fetch).results e.fid = processFeed ch fetch e :=
  runFold_get_mem ch fetch task.feeds [] e hnd hmem rfl

end RunLemmas

section PlanLemmas

theorem plan_entry_mem (ch : Chrono) (db : Database) (fid : FeedId) (f : Feed) (url : String)
    (hget : assocGet db.storage fid = some f) (hurl : f.feed_url = some url) :
    ({ fid := fid, url := url, existing := f.feeds.map (item_key ch),
       name := f.displayName } : PlanEntry) ∈ (db.update_feeds_task ch).feeds := by
  have hmem := assocGet_eq_some_mem _ _ _ hget
  unfold Database.update_feeds_task
  exact List.mem_filterMap.mpr ⟨(fid, f), hmem, by simp [hurl]⟩

theorem plan_fids_sublist_aux (ch : Chrono) (s : List (FeedId × Feed)) :
    ((s.filterMap (fun p =>
      match p.2.feed_url with
      | some rss => some ({ fid := p.1, url := rss,
                            existing := p.2.feeds.map (item_key ch),
                            name := p.2.displayName } : PlanEntry)
      | none => none)).map PlanEntry.fid).Sublist (s.map Prod.fst) := by
  induction s with
  | nil => simp
  | cons p rest ih =>
    rcases hu : p.2.feed_url with _ | rss
    · simp only [List.filterMap_cons, hu, List.map_cons]
      exact ih.cons p.1
    · simp only [List.filterMap_cons, hu, List.map_cons]
      exact ih.cons₂ p.1

theorem plan_fids_nodup (ch : Chrono) (db : Database)
    (hnd : (db.storage.map Prod.fst).Nodup) :
    ((db.update_feeds_task ch).feeds.map PlanEntry.fid).Nodup := by
  unfold Database.update_feeds_task
  exact (plan_fids_sublist_aux ch db.storage).nodup hnd

end PlanLemmas

section FetchLemmas

theorem fetchLoopC_count_le {α : Type} (attempt : Nat → Except Unit α) (r : Nat)
    (h : r < 6) : (fetchLoopC attempt r).2 ≤ 6 - r := by
  rw [fetchLoopC]
  cases hA : attempt (r + 1) with
  | ok res => simp only [hA]; omega
  | error u =>
    simp only [hA]
    by_cases h5 : r + 1 > 5
    · simp only [dif_pos h5]
      omega
    · have ih := fetchLoopC_count_le attempt (r + 1) (by omega)
      simp only [dif_neg h5]
      omega
termination_by 6 - r

end FetchLemmas

section MigrateLemmas

theorem drainLoop_eq {α β : Type} (mk : Nat → α → β) (xs : List α) :
    ∀ (acc : List β) (c : Nat),
      drainLoop mk (acc, c) xs =
        (acc ++ (xs.enumFrom c).map (fun p => mk p.1 p.2), c + xs.length) := by
  induction xs with
  | nil =>
    intro acc c
    simp [drainLoop]
  | cons x rest ih =>
    intro acc c
    simp only [drainLoop, List.foldl_cons] at *
    rw [ih (acc ++ [mk c x]) (c + 1)]
    simp only [List.enumFrom, List.map_cons, List.length_cons, List.append_assoc,
      List.singleton_append]
    rw [Prod.mk.injEq]
    exact ⟨rfl, by omega⟩

end MigrateLemmas

/-- C1: if at commit time the sequence number captured by the refresh
plan (propagated unchanged through the execute phase) no longer equals
the store's current `update_seq_no`, then `commit_from` discards the
whole batch and leaves the store unchanged: every feed's stored items
and headers are untouched, the last-refresh timestamp is not advanced,
and `update_seq_no` is not incremented. -/
theorem commit_from_discards_on_seq_mismatch (ch : Chrono) (db : Database)
    (results : UpdateFeedsTaskResult) (now : Int)
    (h : results.seq_no ≠ db.update_seq_no) :
    (∀ fid, assocGet (db.commit_from ch results now).storage fid = assocGet db.storage fid) ∧
    (db.commit_from ch results now).last_feed_update = db.last_feed_update ∧
    (db.commit_from ch results now).update_seq_no = db.update_seq_no ∧
    (db.update_feeds_task ch).seq_no = db.update_seq_no ∧
    (∀ (fetch : Fetch) (task : UpdateFeedsTask), (task.run ch fetch).seq_no = task.seq_no) := by
  have hdb : db.commit_from ch results now = db := by
    simp [Database.commit_from, h]
  refine ⟨fun fid => by rw [hdb], by rw [hdb], by rw [hdb], rfl, fun fetch task => rfl⟩

/-- C4: when `commit_from` runs with a matching sequence number it maps
each feed of the result set (present in the store) to the state in which
the returned headers have been appended exactly when no value-equal
header was already stored, the item list has been extended with the new
items and re-sorted by effective date; the last-refresh timestamp is set
to now, and `update_seq_no` grows by exactly one for the whole batch
regardless of the number of feeds in the result set.  The last two
conjuncts spell out the dedup discipline: the appended header list stays
duplicate-free and contains exactly the old and the returned headers. -/
theorem commit_from_merges (ch : Chrono) (db : Database)
    (results : UpdateFeedsTaskResult) (now : Int)
    (hseq : results.seq_no = db.update_seq_no)
    (hnd : (results.results.map Prod.fst).Nodup) :
    (db.commit_from ch results now).update_seq_no = db.update_seq_no + 1 ∧
    (db.commit_from ch results now).last_feed_update = some now ∧
    (∀ fid pr f, (fid, pr) ∈ results.results → assocGet db.storage fid = some f →
      assocGet (db.commit_from ch results now).storage fid =
        some { f with feed_headers := dedupAppend f.feed_headers pr.1,
                      feeds := FeedItem.sort ch (f.feeds ++ pr.2) }) ∧
    (∀ old hs, old.Nodup → (dedupAppend old hs).Nodup) ∧
    (∀ old hs x, x ∈ dedupAppend old hs ↔ x ∈ old ∨ x ∈ hs) := by
  have hcond : ¬ results.seq_no ≠ db.update_seq_no := by simp [hseq]
  refine ⟨?_, ?_, ?_, dedupAppend_nodup, mem_dedupAppend⟩
  · simp [Database.commit_from, hcond, hseq]
  · simp [Database.commit_from, hcond]
  · intro fid pr f hmem hget
    have hstore : (db.commit_from ch results now).storage =
        results.results.foldl (fun s e => assocModify s e.1 (commitFeed ch e.2)) db.storage := by
      simp [Database.commit_from, hcond]
    rw [hstore, foldl_assocModify_get_mem (commitFeed ch) results.results db.storage fid pr hnd hmem,
        hget]
    simp [commitFeed_eq]

/-- C10: when `commit_from` is accepted and the result set names a feed
id no longer present in the store, that entry is silently skipped: no
feed is created for it, every other result feed present in the store is
still committed, the last-refresh timestamp is still advanced, and
`update_seq_no` still increases by exactly one. -/
theorem commit_from_skips_absent_feed (ch : Chrono) (db : Database)
    (results : UpdateFeedsTaskResult) (now : Int) (fid : FeedId)
    (pr : List FeedHeader × List FeedItem)
    (hseq : results.seq_no = db.update_seq_no)
    (hnd : (results.results.map Prod.fst).Nodup)
    (hmem : (fid, pr) ∈ results.results)
    (habs : assocGet db.storage fid = none) :
    assocGet (db.commit_from ch results now).storage fid = none ∧
    (∀ fid' pr' f', (fid', pr') ∈ results.results → assocGet db.storage fid' = some f' →
      assocGet (db.commit_from ch results now).storage fid' =
        some { f' with feed_headers := dedupAppend f'.feed_headers pr'.1,
                       feeds := FeedItem.sort ch (f'.feeds ++ pr'.2) }) ∧
    (db.commit_from ch results now).last_feed_update = some now ∧
    (db.commit_from ch results now).update_seq_no = db.update_seq_no + 1 := by
  have hcond : ¬ results.seq_no ≠ db.update_seq_no := by simp [hseq]
  have hstore : (db.commit_from ch results now).storage =
      results.results.foldl (fun s e => assocModify s e.1 (commitFeed ch e.2)) db.storage := by
    simp [Database.commit_from, hcond]
  refine ⟨?_, ?_, ?_, ?_⟩
  · rw [hstore, foldl_assocModify_get_mem (commitFeed ch) results.results db.storage fid pr hnd hmem,
        habs]
    rfl
  · intro fid' pr' f' hmem' hget'
    rw [hstore, foldl_assocModify_get_mem (commitFeed ch) results.results db.storage fid' pr' hnd hmem',
        hget']
    simp [commitFeed_eq]
  · simp [Database.commit_from, hcond]
  · simp [Database.commit_from, hcond, hseq]

/-- C2 (evaluation at the failing input): with exactly one id indexed
under the title "A" and an empty url index, `SourceLookup::check` on the
key (name "A", no url) returns `none` instead of the title-index match
"id1" — the second branch returns the head of the (empty) url-index
match set, so the claimed (and spec-mandated) title-branch resolution
does not hold on the code. -/
theorem check_title_branch_returns_url_head :
    (exampleLookup.title_lookup "A").length = 1 ∧
    (exampleLookup.check { name := "A", feed_url := none }).1 = none ∧
    (exampleLookup.check { name := "A", feed_url := none }).1 ≠ some "id1" := by
  refine ⟨by decide, by decide, by decide⟩

/-- C3: when identity resolution finds no existing match, the minted
FeedId is the lowercase hex encoding of the digest of the UTF-8 bytes of
the feed's name followed by the bytes of its source-url when present
(`sha` is the external SHA-256 of the `sha2` crate, whose incremental
`update` calls hash the concatenated stream); and, starting from a state
with no entry under either index for this feed's name and url, repeated
`insert` calls return the same FeedId. -/
theorem insert_mints_sha256_id (sha : List Nat → List Nat) (db : Database) (item : Feed) :
    ((db.lookup.check item.key).1 = none →
      (db.insert sha item).2 = hexOfBytes (sha (utf8Bytes item.name ++
        (match item.feed_url with
         | some rss => utf8Bytes rss
         | none => [])))) ∧
    (db.lookup.title_lookup item.name = [] →
      (∀ u, item.feed_url = some u → db.lookup.rss_lookup u = []) →
      ((db.insert sha item).1.insert sha item).2 = (db.insert sha item).2) := by
  constructor
  · intro h
    simp [Database.insert, h]
  · intro ht hr
    have h0 : (db.lookup.check item.key).1 = none := by
      rcases hu : item.feed_url with _ | u
      · simp [SourceLookup.check, Feed.key, hu, ht]
      · simp [SourceLookup.check, Feed.key, hu, ht, hr u hu]
    rcases hu : item.feed_url with _ | u
    · have hlk : ((db.lookup.touch (hexOfBytes (sha (utf8Bytes item.name))) item.key).check
          item.key).1 = none := by
        simp [SourceLookup.touch, SourceLookup.check, Feed.key, hu, ht, setInsert]
      simp [Database.insert, h0, hu, hlk]
    · have hlk : ((db.lookup.touch (hexOfBytes (sha (utf8Bytes item.name ++ utf8Bytes u)))
          item.key).check item.key).1 =
          some (hexOfBytes (sha (utf8Bytes item.name ++ utf8Bytes u))) := by
        simp [SourceLookup.touch, SourceLookup.check, Feed.key, hu, ht, hr u hu, setInsert]
      simp [Database.insert, h0, hu, hlk]

/-- C5: during the execute phase, for a planned feed whose download
succeeds and parses, the result entry holds exactly the fetched items
(sorted) filtered by their identity key — the (title, raw date string)
pair computed by `item_key`, as the first conjunct makes explicit for
the RSS variant — and an item is kept if and only if its identity key is
absent from the snapshot of identity keys of the feed's stored items
captured during the plan phase. -/
theorem run_new_items_iff (ch : Chrono) (fetch : Fetch) (db : Database) (fid : FeedId)
    (f : Feed) (url : String) (dl : FeedDownload)
    (hnd : (db.storage.map Prod.fst).Nodup)
    (hget : assocGet db.storage fid = some f)
    (hurl : f.feed_url = some url)
    (hdl : (fetchLoopC (fetch url) 0).1 = some (some dl)) :
    (∀ it : RssItem, item_key ch (FeedItem.Rss it) = (it.title, it.pub_date)) ∧
    assocGet ((db.update_feeds_task ch).run ch fetch).results fid =
      some ([dl.split_header.1],
        (FeedItem.sort ch dl.split_header.2).filter (fun i =>
          !decide (item_key ch i ∈ f.feeds.map (item_key ch)))) ∧
    (∀ i : FeedItem,
      i ∈ (FeedItem.sort ch dl.split_header.2).filter (fun i =>
          !decide (item_key ch i ∈ f.feeds.map (item_key ch))) ↔
        (i ∈ FeedItem.sort ch dl.split_header.2 ∧
          item_key ch i ∉ f.feeds.map (item_key ch))) := by
  have hmem := plan_entry_mem ch db fid f url hget hurl
  have hnd' := plan_fids_nodup ch db hnd
  have hres := run_results_get ch fetch (db.update_feeds_task ch)
    { fid := fid, url := url, existing := f.feeds.map (item_key ch), name := f.displayName }
    hnd' hmem
  refine ⟨fun it => rfl, ?_, ?_⟩
  · simpa [processFeed, hdl] using hres
  · intro i
    simp [List.mem_filter]

/-- C6 (counterexample to the 5-attempt bound): on an oracle that always
fails at the transport level, the retry loop of the execute phase calls
download exactly 6 times before giving up — more than the 5 attempts the
claim allows. -/
theorem retry_counterexample_six_attempts :
    (fetchLoopC (fetchFailW "u") 0).2 = 6 ∧ ¬ ((fetchLoopC (fetchFailW "u") 0).2 ≤ 5) := by
  have h : fetchLoopC (fetchFailW "u") 0 = (none, 6) := by
    simp [fetchLoopC, fetchFailW]
  rw [h]
  exact ⟨rfl, by omega⟩

/-- C6 (amended): for each planned feed the execute phase attempts the
HTTP fetch at most 6 times (an initial attempt plus up to 5 retries,
giving up after the sixth consecutive transport failure); the result
entry of a planned feed is a function of that feed's own plan entry and
the oracle at its own url alone (so one feed's failure cannot affect any
other feed's result), and a feed whose fetch ultimately fails is omitted
from the result set. -/
theorem run_retry_bound_and_isolation (ch : Chrono) (fetch : Fetch) (db : Database)
    (fid : FeedId) (f : Feed) (url : String)
    (hnd : (db.storage.map Prod.fst).Nodup)
    (hget : assocGet db.storage fid = some f)
    (hurl : f.feed_url = some url) :
    ((fetchLoopC (fetch url) 0).2 ≤ 6) ∧
    (assocGet ((db.update_feeds_task ch).run ch fetch).results fid =
      processFeed ch fetch
        { fid := fid, url := url, existing := f.feeds.map (item_key ch),
          name := f.displayName }) ∧
    ((fetchLoopC (fetch url) 0).1 = none →
      assocGet ((db.update_feeds_task ch).run ch fetch).results fid = none) := by
  have hbound := fetchLoopC_count_le (fetch url) 0 (by omega)
  have hmem := plan_entry_mem ch db fid f url hget hurl
  have hnd' := plan_fids_nodup ch db hnd
  have hres := run_results_get ch fetch (db.update_feeds_task ch)
    { fid := fid, url := url, existing := f.feeds.map (item_key ch), name := f.displayName }
    hnd' hmem
  refine ⟨by omega, hres, ?_⟩
  intro hnone
  rw [hres]
  simp [processFeed, hnone]

/-- C7: every save writes the serialized output to the temporary sibling
path, and the original document is replaced exactly when shrinking is
allowed or the new size is at least the current on-disk size; on a
refused replacement the original contents are byte-identical to the
pre-save state, the warning is emitted (and no error is raised — the
operation is total), and no path other than the original and the
temporary sibling is touched. -/
theorem safe_save_json_guard (fs : String → Option String) (data path : String)
    (allow_shrink : Bool) (hne : withExtension path "new.json" ≠ path) :
    ((safe_save_json fs data path allow_shrink).renamed =
      (allow_shrink ||
        decide (data.utf8ByteSize ≥ ((fs path).map String.utf8ByteSize).getD 0))) ∧
    ((safe_save_json fs data path allow_shrink).renamed = true →
      (safe_save_json fs data path allow_shrink).files path = some data ∧
      (safe_save_json fs data path allow_shrink).warned = false) ∧
    ((safe_save_json fs data path allow_shrink).renamed = false →
      (safe_save_json fs data path allow_shrink).files path = fs path ∧
      (safe_save_json fs data path allow_shrink).warned = true ∧
      (safe_save_json fs data path allow_shrink).files (withExtension path "new.json") =
        some data) ∧
    (∀ p, p ≠ path → p ≠ withExtension path "new.json" →
      (safe_save_json fs data path allow_shrink).files p = fs p) := by
  have hpne : ¬ path = withExtension path "new.json" := fun hh => hne hh.symm
  by_cases hc : (allow_shrink ||
      decide (data.utf8ByteSize ≥ ((fs path).map String.utf8ByteSize).getD 0)) = true
  · refine ⟨?_, ?_, ?_, ?_⟩
    · simp [safe_save_json, hpne, hc]
    · intro _
      constructor
      · simp [safe_save_json, hpne, hc]
      · simp [safe_save_json, hpne, hc]
    · intro hfalse
      exfalso
      have : (safe_save_json fs data path allow_shrink).renamed = true := by
        simp [safe_save_json, hpne, hc]
      rw [hfalse] at this
      exact absurd this (by decide)
    · intro p hp hpn
      simp [safe_save_json, hpne, hc, hp, hpn]
  · rw [Bool.not_eq_true] at hc
    refine ⟨?_, ?_, ?_, ?_⟩
    · simp [safe_save_json, hpne, hc]
    · intro htrue
      exfalso
      have : (safe_save_json fs data path allow_shrink).renamed = false := by
        simp [safe_save_json, hpne, hc]
      rw [htrue] at this
      exact absurd this (by decide)
    · intro _
      refine ⟨?_, ?_, ?_⟩
      · simp [safe_save_json, hpne, hc]
      · simp [safe_save_json, hpne, hc]
      · simp [safe_save_json, hpne, hc]
    · intro p hp hpn
      simp [safe_save_json, hpne, hc, hp, hpn]

theorem commit_fold_sorted (ch : Chrono)
    (entries : List (FeedId × (List FeedHeader × List FeedItem)))
    (s : List (FeedId × Feed))
    (hinv : ∀ fid f, assocGet s fid = some f → SortedItems ch f.feeds) :
    ∀ fid f,
      assocGet (entries.foldl (fun s e => assocModify s e.1 (commitFeed ch e.2)) s) fid =
        some f → SortedItems ch f.feeds := by
  induction entries generalizing s with
  | nil => exact hinv
  | cons e rest ih =>
    simp only [List.foldl_cons]
    refine ih (assocModify s e.1 (commitFeed ch e.2)) ?_
    intro fid f hget
    by_cases hfid : e.1 = fid
    · subst hfid
      rw [assocGet_modify_self] at hget
      rcases hs : assocGet s e.1 with _ | f0
      · rw [hs] at hget
        simp at hget
      · rw [hs] at hget
        simp only [Option.map_some'] at hget
        injection hget with hget
        subst hget
        rw [commitFeed_eq]
        exact sort_sorted ch _
    · rw [assocGet_modify_ne s fid e.1 _ hfid] at hget
      exact hinv fid f hget

/-- C8: the item sort used after every item-list mutation produces a list
that is non-decreasing by effective publish date, where an absent or
unparseable date takes the fixed `old_date` sentinel; the sort is stable
(items with equal effective dates keep their original relative order,
stated as filter-invariance at every date); and both mutating operations
of the store — the refresh commit and `insert` (whose merge never
touches item lists, and whose freshly constructed feeds carry sorted
item lists) — leave every feed's item list sorted. -/
theorem items_sorted_invariant (ch : Chrono) :
    (∀ l, SortedItems ch (FeedItem.sort ch l)) ∧
    (∀ (l : List FeedItem) (d : Int),
      (FeedItem.sort ch l).filter (fun i => decide (i.publish_date_or_old ch = d)) =
        l.filter (fun i => decide (i.publish_date_or_old ch = d))) ∧
    (∀ i : FeedItem, i.publish_date ch = none → i.publish_date_or_old ch = old_date) ∧
    (∀ (db : Database) (results : UpdateFeedsTaskResult) (now : Int),
      (∀ fid f, assocGet db.storage fid = some f → SortedItems ch f.feeds) →
      ∀ fid f, assocGet (db.commit_from ch results now).storage fid = some f →
        SortedItems ch f.feeds) ∧
    (∀ (sha : List Nat → List Nat) (db : Database) (item : Feed),
      (∀ fid f, assocGet db.storage fid = some f → SortedItems ch f.feeds) →
      SortedItems ch item.feeds →
      ∀ fid f, assocGet (db.insert sha item).1.storage fid = some f →
        SortedItems ch f.feeds) := by
  refine ⟨sort_sorted ch, sort_stable_filter ch, publish_date_none_old ch, ?_, ?_⟩
  · intro db results now hinv fid f hget
    by_cases hseq : results.seq_no ≠ db.update_seq_no
    · rw [show (db.commit_from ch results now) = db by simp [Database.commit_from, hseq]] at hget
      exact hinv fid f hget
    · have hstore : (db.commit_from ch results now).storage =
          results.results.foldl (fun s e => assocModify s e.1 (commitFeed ch e.2)) db.storage := by
        simp [Database.commit_from, hseq]
      rw [hstore] at hget
      exact commit_fold_sorted ch results.results db.storage hinv fid f hget
  · intro sha db item hinv hitem fid f hget
    simp only [Database.insert] at hget
    set fid0 := match (db.lookup.check item.key).1 with
      | some fid => fid
      | none =>
          hexOfBytes (sha (utf8Bytes item.name ++
            (match item.feed_url with
             | some rss => utf8Bytes rss
             | none => []))) with hfid0
    have hpre : ∀ g f', assocGet (getOrInsert db.storage fid0 item) g = some f' →
        SortedItems ch f'.feeds := by
      intro g f' hg
      unfold getOrInsert at hg
      by_cases hsome : (assocGet db.storage fid0).isSome
      · rw [if_pos hsome] at hg
        exact hinv g f' hg
      · rw [if_neg hsome] at hg
        by_cases hgf : fid0 = g
        · subst hgf
          rw [assocGet_append_self db.storage fid0 item
            (by rcases h : assocGet db.storage fid0 with _ | _
                · rfl
                · rw [h] at hsome; simp at hsome)] at hg
          injection hg with hg
          subst hg
          exact hitem
        · rw [assocGet_append_ne db.storage g fid0 item hgf] at hg
          exact hinv g f' hg
    by_cases hfg : fid0 = fid
    · subst hfg
      rw [assocGet_modify_self] at hget
      rcases hs : assocGet (getOrInsert db.storage fid0 item) fid0 with _ | f0
      · rw [hs] at hget
        simp at hget
      · rw [hs] at hget
        simp only [Option.map_some'] at hget
        injection hget with hget
        subst hget
        have hf0 := hpre fid0 f0 hs
        simpa [Feed.extend_tags, SortedItems] using hf0
    · rw [assocGet_modify_ne _ fid fid0 _ hfg] at hget
      exact hpre fid f hget

theorem assocGet_map_snd {β γ : Type} (h : β → γ) (s : List (FeedId × β)) (k : FeedId) :
    assocGet (s.map (fun p => (p.1, h p.2))) k = (assocGet s k).map h := by
  induction s with
  | nil => rfl
  | cons p rest ih =>
    by_cases hp : p.1 = k
    · simp [assocGet, hp]
    · simp [assocGet, hp, ih]

/-- C9: opening the store applies the migration step to each loaded
aggregate before it is used; the migration moves the legacy unkeyed
header and item lists into the id-stamped lists, assigning sequence ids
from the persisted counters in original list order and advancing the
counters by exactly the number of migrated entries; and the migration is
idempotent — a second run changes nothing (already migrated entries keep
their ids and the counters do not advance). -/
theorem migration_on_open_idempotent :
    (∀ (docs : List (FeedId × FeedV2)) (fid : FeedId),
      assocGet (StorageV2.openStore docs) fid = (assocGet docs fid).map FeedV2.migrate_data) ∧
    (∀ g : FeedV2,
      g.migrate_data.feed_headers = [] ∧
      g.migrate_data.feed_headers_v2 =
        g.feed_headers_v2 ++ (g.feed_headers.enumFrom g.feed_headers_counter).map
          (fun p => { id := p.1, header := p.2 }) ∧
      g.migrate_data.feed_headers_counter = g.feed_headers_counter + g.feed_headers.length ∧
      g.migrate_data.feeds = [] ∧
      g.migrate_data.feeds_v2 =
        g.feeds_v2 ++ (g.feeds.enumFrom g.feeds_counter).map (fun p => { id := p.1, item := p.2 }) ∧
      g.migrate_data.feeds_counter = g.feeds_counter + g.feeds.length) ∧
    (∀ g : FeedV2, g.migrate_data.migrate_data = g.migrate_data) := by
  refine ⟨?_, ?_, ?_⟩
  · intro docs fid
    exact assocGet_map_snd FeedV2.migrate_data docs fid
  · intro g
    refine ⟨rfl, ?_, ?_, rfl, ?_, ?_⟩
    · simp [FeedV2.migrate_data, drainLoop_eq]
    · simp [FeedV2.migrate_data, drainLoop_eq]
    · simp [FeedV2.migrate_data, drainLoop_eq]
    · simp [FeedV2.migrate_data, drainLoop_eq]
  · intro g
    simp [FeedV2.migrate_data, drainLoop]

/-- Witness for C1 at a concrete store and mismatching result batch. -/
theorem commit_from_discards_witness :
    resW1.seq_no ≠ dbW.update_seq_no ∧
    (dbW.commit_from ch0 resW1 0).update_seq_no = dbW.update_seq_no ∧
    (dbW.commit_from ch0 resW1 0).last_feed_update = dbW.last_feed_update := by
  have h := commit_from_discards_on_seq_mismatch ch0 dbW resW1 0 (by decide)
  exact ⟨by decide, h.2.2.1, h.2.1⟩

/-- Witness for C3 at the end-to-end example feed. -/
theorem insert_mints_witness :
    (dbW.lookup.check feedW3.key).1 = none ∧
    (dbW.insert shaW feedW3).2 =
      hexOfBytes (shaW (utf8Bytes feedW3.name ++ utf8Bytes "https://x/feed")) ∧
    ((dbW.insert shaW feedW3).1.insert shaW feedW3).2 = (dbW.insert shaW feedW3).2 := by
  have h := insert_mints_sha256_id shaW dbW feedW3
  refine ⟨by decide, h.1 (by decide), h.2 (by decide) ?_⟩
  intro u hu
  exact rfl

/-- Witness for C4 at a concrete one-feed store and matching batch. -/
theorem commit_from_merges_witness :
    resW4.seq_no = dbW4.update_seq_no ∧
    (resW4.results.map Prod.fst).Nodup ∧
    assocGet (dbW4.commit_from ch0 resW4 7).storage "f1" =
      some { feedW with
             feed_headers := dedupAppend feedW.feed_headers [hdrW, hdrW2]
             feeds := FeedItem.sort ch0 (feedW.feeds ++ [itemW]) } := by
  have h := commit_from_merges ch0 dbW4 resW4 7 (by decide) (by decide)
  exact ⟨by decide, by decide, h.2.2.1 "f1" ([hdrW, hdrW2], [itemW]) feedW (by decide) (by decide)⟩

/-- Witness for C10 at a batch naming an absent feed id. -/
theorem commit_skips_witness :
    assocGet (dbW4.commit_from ch0 resW10 2).storage "gone" = none ∧
    (dbW4.commit_from ch0 resW10 2).update_seq_no = dbW4.update_seq_no + 1 := by
  have h := commit_from_skips_absent_feed ch0 dbW4 resW10 2 "gone" ([hdrW2], [itemW])
    (by decide) (by decide) (by decide) (by decide)
  exact ⟨h.1, h.2.2.2⟩

/-- Witness for C5 at a concrete plan and a successfully fetching oracle. -/
theorem run_new_items_witness :
    assocGet ((dbW5.update_feeds_task ch0).run ch0 fetchW).results "f5" =
      some ([dlW.split_header.1],
        (FeedItem.sort ch0 dlW.split_header.2).filter (fun i =>
          !decide (item_key ch0 i ∈ feedW5.feeds.map (item_key ch0)))) := by
  have h := run_new_items_iff ch0 fetchW dbW5 "f5" feedW5 "u5" dlW (by decide) (by decide) rfl
    (by simp [fetchLoopC, fetchW])
  exact h.2.1

/-- Witness for C6 at a concrete plan and an always-failing oracle. -/
theorem run_retry_witness :
    ((fetchLoopC (fetchFailW "u5") 0).2 ≤ 6) ∧
    assocGet ((dbW5.update_feeds_task ch0).run ch0 fetchFailW).results "f5" = none := by
  have h := run_retry_bound_and_isolation ch0 fetchFailW dbW5 "f5" feedW5 "u5"
    (by decide) (by decide) rfl
  exact ⟨h.1, h.2.2 (by simp [fetchLoopC, fetchFailW])⟩

/-- Witness for C7 at a shrinking save with shrink not allowed. -/
theorem safe_save_json_witness :
    (safe_save_json fsW "short" "d/user_data.json" false).renamed = false ∧
    (safe_save_json fsW "short" "d/user_data.json" false).files "d/user_data.json" =
      fsW "d/user_data.json" ∧
    (safe_save_json fsW "short" "d/user_data.json" false).warned = true := by
  have h := safe_save_json_guard fsW "short" "d/user_data.json" false (by decide)
  have hr : (safe_save_json fsW "short" "d/user_data.json" false).renamed = false := by
    rw [h.1]
    decide
  exact ⟨hr, (h.2.2.1 hr).1, (h.2.2.1 hr).2.1⟩

/-- Witness for C8 at a concrete item list and a dateless item. -/
theorem items_sorted_witness :
    SortedItems ch0 (FeedItem.sort ch0 [itemW]) ∧
    FeedItem.publish_date_or_old ch0 itemW = old_date := by
  have h := items_sorted_invariant ch0
  exact ⟨h.1 [itemW], h.2.2.1 itemW rfl⟩

end FeedBouncer
